import Mathlib

/-!
Verification of the raw-IP voice relay core (raw_voice_proto_fixed.c).

The C program builds raw IPv4 packets carrying a private 20-byte frame
header (magic, client_id, seq, ts_sec, ts_usec, all network byte order)
followed by simulated audio bytes.  A relay server keeps a bounded client
registry and fans inbound frames out to every other registered client.

Byte buffers are modelled as `List Nat`, each element a byte value.
Multi-byte machine fields are modelled as `Nat` with explicit `% 2 ^ w`
truncation where the C code truncates.  The host is little-endian (the
code reads and writes memory through `struct iphdr` and `htonl`/`htons`),
so 16-bit loads of the packet buffer combine bytes low-first, while the
wire fields written through `htonl`/`htons` are big-endian.
-/

/-- Protocol constant `MAGIC 0xA1B2C3D4UL` from the source. -/
def MAGIC : Nat := 0xA1B2C3D4

/-- Protocol constant `CUSTOM_PROTO 255` from the source. -/
def CUSTOM_PROTO : Nat := 255

/-- Constant `MAX_CLIENTS 64` from the source. -/
def MAX_CLIENTS : Nat := 64

/-- Constant `PRIV_HDR_SIZE (4+4+4+4+4) = 20` from the source. -/
def PRIV_HDR_SIZE : Nat := 20

/-- One 16-bit load `buf[i]` of `ip_checksum`: the C code reads the packet
buffer as an `unsigned short` array on a little-endian host, so the word
combines byte `2*i` (low) and byte `2*i+1` (high). -/
def wordLE (buf : List Nat) (i : Nat) : Nat :=
  buf.getD (2 * i) 0 + 256 * buf.getD (2 * i + 1) 0

/-- The summation loop of `ip_checksum`: `for (i = 0; i < nwords; i++)
sum += buf[i];` with `sum` an `unsigned long` (64-bit, wraps mod 2^64). -/
def sumWords (buf : List Nat) : Nat → Nat
  | 0 => 0
  | n + 1 => (sumWords buf n + wordLE buf n) % 18446744073709551616

/-- The carry-fold loop of `ip_checksum`, written with an explicit fuel
argument: each iteration of `while (sum >> 16) sum = (sum & 0xffff) +
(sum >> 16);` strictly decreases `sum` whenever `sum >= 2^16`, so a fuel
of `s` iterations always suffices for input `s` (proved below as
`foldCarry_eq`, the exact loop recurrence). -/
def foldCarryAux : Nat → Nat → Nat
  | 0, s => s
  | fuel + 1, s => if s < 65536 then s else foldCarryAux fuel (s % 65536 + s / 65536)

/-- Result of the carry-fold loop of `ip_checksum` on accumulated sum `s`. -/
def foldCarry (s : Nat) : Nat := foldCarryAux s s

/-- Source function `ip_checksum(unsigned short *buf, int nwords)`: sum
`nwords` 16-bit words into a 64-bit accumulator, fold carries, then
return `(unsigned short)(~sum)` (bitwise complement truncated to 16
bits). -/
def ip_checksum (buf : List Nat) (nwords : Nat) : Nat :=
  (18446744073709551615 - foldCarry (sumWords buf nwords)) % 65536

/-- Big-endian (network order) bytes of a 32-bit value, as written by
`htonl` into the packet buffer.  `x` is assumed already truncated to 32
bits by the caller. -/
def be32 (x : Nat) : List Nat :=
  [x / 16777216 % 256, x / 65536 % 256, x / 256 % 256, x % 256]

/-- A 32-bit network-order load at byte offset `i`, as performed by
`ntohl` on a field `memcpy`d out of the packet buffer. -/
def rdBE32 (l : List Nat) (i : Nat) : Nat :=
  l.getD i 0 * 16777216 + l.getD (i + 1) 0 * 65536 +
    l.getD (i + 2) 0 * 256 + l.getD (i + 3) 0

/-- The private-header construction of `client_send_thread`: write
`magic`, `client_id`, `seq`, `ts_sec`, `ts_usec` with `htonl` (each cast
to `u32` first, hence the `% 2^32`), followed by the audio bytes. -/
def encode_frame (cid seqn ts_sec ts_usec : Nat) (audio : List Nat) : List Nat :=
  be32 MAGIC ++ (be32 (cid % 4294967296) ++ (be32 (seqn % 4294967296) ++
    (be32 (ts_sec % 4294967296) ++ (be32 (ts_usec % 4294967296) ++ audio))))

/-- The frame-decoding checks of the receive loops (`main`, both server
and client): drop the frame if `payload_len < sizeof(struct priv_hdr)`,
drop it if `ntohl(ph.magic) != MAGIC`, otherwise extract the four
`ntohl`ed fields and the audio bytes after the 20-byte private header. -/
def decode_frame (bytes : List Nat) : Option (Nat × Nat × Nat × Nat × List Nat) :=
  if bytes.length < 20 then none
  else if rdBE32 bytes 0 ≠ MAGIC then none
  else some (rdBE32 bytes 4, rdBE32 bytes 8, rdBE32 bytes 12, rdBE32 bytes 16,
    bytes.drop 20)

/-- Source function `build_ip_packet(buf, ip_src, ip_dst, payload,
payload_len)`.  Addresses are the four memory bytes of `in_addr.s_addr`
(network order).  `ident` stands for the `rand() & 0xFFFF` identification
value.  Byte 0 is `0x45` (version 4 in the high nibble, ihl 5 in the low
nibble of the little-endian bitfields); `tot_len` and `id` are written
with `htons`; `ttl = 64`; `protocol = CUSTOM_PROTO`; the checksum is
computed by `ip_checksum((unsigned short *)ip, ip->ihl)` over the buffer
with the checksum field still zero, and the resulting `unsigned short`
is stored in host order (low byte first). -/
def build_ip_packet (ip_src ip_dst : List Nat) (ident : Nat) (payload : List Nat) :
    List Nat :=
  let tl := (20 + payload.length) % 65536
  let idw := ident % 65536
  let hdr0 := [69, 0, tl / 256, tl % 256, idw / 256, idw % 256, 0, 0, 64, 255, 0, 0] ++
    ip_src ++ ip_dst
  let check := ip_checksum (hdr0 ++ payload) 5
  ([69, 0, tl / 256, tl % 256, idw / 256, idw % 256, 0, 0, 64, 255,
    check % 256, check / 256] ++ ip_src ++ ip_dst) ++ payload

/-- Source function `parse_ip_packet(buf, buflen, ...)`: reject buffers
shorter than `sizeof(struct iphdr)` (20), reject `version != 4`, reject
`protocol != CUSTOM_PROTO`, reject `buflen < ihl * 4`; on success return
the source address bytes (`saddr`, bytes 12..15) and the payload view
starting `ihl * 4` bytes in. -/
def parse_ip_packet (buf : List Nat) : Option (List Nat × List Nat) :=
  if buf.length < 20 then none
  else if buf.getD 0 0 / 16 % 16 ≠ 4 then none
  else if buf.getD 9 0 ≠ CUSTOM_PROTO then none
  else if buf.length < buf.getD 0 0 % 16 * 4 then none
  else some ((buf.drop 12).take 4, buf.drop (buf.getD 0 0 % 16 * 4))

/-- Source type `struct client_entry`; `addr` is the four memory bytes
of the field `sin_addr.s_addr` of the entry. -/
structure client_entry where
  used : Bool
  client_id : Nat
  addr : List Nat
  last_seen_ms : Nat
deriving DecidableEq, Repr

/-- First loop of `server_register_client`: scan for a used entry with
the given id; if found, overwrite its address and last-seen time in
place and stop.  Returns `none` when no entry matches. -/
def update_client : List client_entry → Nat → List Nat → Nat → Option (List client_entry)
  | [], _, _, _ => none
  | e :: rest, cid, a, now =>
    if e.used && e.client_id == cid then
      some ({ e with addr := a, last_seen_ms := now } :: rest)
    else
      match update_client rest cid a now with
      | some rest2 => some (e :: rest2)
      | none => none

/-- Second loop of `server_register_client`: put the new record into the
first unused slot (and stop); if every slot is used the list is returned
unchanged (the registration is dropped). -/
def insert_client : List client_entry → Nat → List Nat → Nat → List client_entry
  | [], _, _, _ => []
  | e :: rest, cid, a, now =>
    if e.used then e :: insert_client rest cid a now
    else { used := true, client_id := cid, addr := a, last_seen_ms := now } :: rest

/-- Source function `server_register_client(client_id, addr)`, with the
`clients[MAX_CLIENTS]` array as explicit state and `now_ms()` passed in
as `now`. -/
def server_register_client (regs : List client_entry) (cid : Nat) (a : List Nat)
    (now : Nat) : List client_entry :=
  match update_client regs cid a now with
  | some regs2 => regs2
  | none => insert_client regs cid a now

/-- Source function `server_forward_payload(payload, payload_len,
src_addr)`: walk the client array, skip unused entries and entries whose
address equals the observed source address, and for each remaining entry
build a fresh IP packet (server address as source, entry address as
destination) around the unchanged payload and send it.  The result is
the list of (destination address, packet bytes) sends, in array order. -/
def server_forward_payload : List client_entry → List Nat → Nat → List Nat → List Nat →
    List (List Nat × List Nat)
  | [], _, _, _, _ => []
  | e :: rest, ssrc, ident, pl, src =>
    if e.used = false then server_forward_payload rest ssrc ident pl src
    else if e.addr = src then server_forward_payload rest ssrc ident pl src
    else (e.addr, build_ip_packet ssrc e.addr ident pl) ::
      server_forward_payload rest ssrc ident pl src

/-- Used client ids of a registry state, in slot order. -/
def usedIds (regs : List client_entry) : List Nat :=
  (regs.filter (fun e => e.used)).map (fun e => e.client_id)

/-- Number of used records carrying a given client id. -/
def idCount (regs : List client_entry) (cid : Nat) : Nat :=
  regs.countP (fun e => e.used && e.client_id == cid)

/-- Number of used records. -/
def usedCount (regs : List client_entry) : Nat :=
  regs.countP (fun e => e.used)

/-- The first used record with a given client id, if any. -/
def find_client (regs : List client_entry) (cid : Nat) : Option client_entry :=
  regs.find? (fun e => e.used && e.client_id == cid)

/-- Modelled from the spec: the Internet-checksum self-verification law
reads the emitted header as ten big-endian 16-bit words ("summing all
ten big-endian 16-bit words of the header with the computed checksum in
place, folding carries, yields 0xFFFF").  This sums the first `n`
big-endian words of a buffer. -/
def sumWordsBE (buf : List Nat) : Nat → Nat
  | 0 => 0
  | n + 1 => sumWordsBE buf n + (256 * buf.getD (2 * n) 0 + buf.getD (2 * n + 1) 0)

/-- Modelled from the spec: carry-folded big-endian word sum of a 20-byte
header, the quantity the spec requires to equal `0xFFFF` for a header
with its checksum in place. -/
def spec_verify_total (hdr : List Nat) : Nat :=
  foldCarry (sumWordsBE hdr 10)

theorem foldCarryAux_lt (fuel : Nat) : ∀ s, s ≤ fuel → foldCarryAux fuel s < 65536 := by
  induction fuel with
  | zero =>
    intro s hs
    have : s = 0 := Nat.le_zero.mp hs
    simp [foldCarryAux, this]
  | succ f ih =>
    intro s hs
    unfold foldCarryAux
    split
    · assumption
    · apply ih
      omega

theorem foldCarry_lt (s : Nat) : foldCarry s < 65536 :=
  foldCarryAux_lt s s (Nat.le_refl s)

theorem foldCarryAux_fuel_irrel : ∀ f1 : Nat, ∀ f2 s : Nat, s ≤ f1 → s ≤ f2 →
    foldCarryAux f1 s = foldCarryAux f2 s := by
  intro f1
  induction f1 with
  | zero =>
    intro f2 s h1 _
    have hz : s = 0 := Nat.le_zero.mp h1
    cases f2 with
    | zero => rfl
    | succ g => simp [foldCarryAux, hz]
  | succ f ih =>
    intro f2 s h1 h2
    cases f2 with
    | zero =>
      have hz : s = 0 := Nat.le_zero.mp h2
      simp [foldCarryAux, hz]
    | succ g =>
      unfold foldCarryAux
      split
      · rfl
      · apply ih
        · omega
        · omega

/-- The total function `foldCarry` satisfies the exact recurrence of the
carry-fold `while` loop in `ip_checksum`. -/
theorem foldCarry_eq (s : Nat) :
    foldCarry s = if s < 65536 then s else foldCarry (s % 65536 + s / 65536) := by
  unfold foldCarry
  split
  · next h =>
    cases s with
    | zero => rfl
    | succ k => simp [foldCarryAux, h]
  · next h =>
    cases hs : s with
    | zero => simp [hs] at h
    | succ k =>
      rw [← hs]
      have h1 : s % 65536 + s / 65536 ≤ s := by omega
      calc foldCarryAux s s
          = foldCarryAux (k + 1) s := by rw [hs]
        _ = foldCarryAux k (s % 65536 + s / 65536) := by
            rw [show foldCarryAux (k + 1) s
                = if s < 65536 then s else foldCarryAux k (s % 65536 + s / 65536) from rfl,
              if_neg h]
        _ = foldCarryAux (s % 65536 + s / 65536) (s % 65536 + s / 65536) := by
            apply foldCarryAux_fuel_irrel
            · omega
            · exact Nat.le_refl _

/-- C10: `ip_checksum` is total.  The carry-fold loop obeys its loop
recurrence on every input (so the loop terminates, with value `foldCarry s`),
each iteration strictly decreases the accumulated sum while the sum is
at least `2^16`, and the value returned by `ip_checksum` always fits in
16 bits. -/
theorem ip_checksum_total (buf : List Nat) (nwords : Nat) :
    ip_checksum buf nwords < 65536
    ∧ foldCarry (sumWords buf nwords) < 65536
    ∧ (foldCarry (sumWords buf nwords)
        = if sumWords buf nwords < 65536 then sumWords buf nwords
          else foldCarry (sumWords buf nwords % 65536 + sumWords buf nwords / 65536))
    ∧ (∀ s : Nat, 65536 ≤ s → s % 65536 + s / 65536 < s) := by
  refine ⟨?_, foldCarry_lt _, foldCarry_eq _, ?_⟩
  · unfold ip_checksum
    exact Nat.mod_lt _ (by norm_num)
  · intro s hs
    omega

theorem ip_checksum_total_witness : 70000 % 65536 + 70000 / 65536 < 70000 :=
  (ip_checksum_total [] 0).2.2.2 70000 (by norm_num)

/-- C4: frame decoding fails, extracting nothing, on every input shorter
than the 20-byte private header and on every input whose first 32-bit
network-order field differs from `MAGIC`. -/
theorem decode_malformed_rejected (bytes : List Nat) :
    (bytes.length < 20 → decode_frame bytes = none)
    ∧ (rdBE32 bytes 0 ≠ MAGIC → decode_frame bytes = none) := by
  constructor
  · intro h
    unfold decode_frame
    rw [if_pos h]
  · intro h
    unfold decode_frame
    by_cases hl : bytes.length < 20
    · rw [if_pos hl]
    · rw [if_neg hl, if_pos h]

theorem decode_malformed_rejected_witness :
    decode_frame [1, 2, 3] = none ∧ decode_frame (List.replicate 20 0) = none :=
  ⟨(decode_malformed_rejected [1, 2, 3]).1 (by decide),
   (decode_malformed_rejected (List.replicate 20 0)).2 (by decide)⟩

/-- C9: `parse_ip_packet` rejects every buffer whose IP version nibble is
not 4, even when the buffer is at least 20 bytes long and its protocol
byte is the private protocol number 255. -/
theorem parse_rejects_bad_version (buf : List Nat)
    (hlen : 20 ≤ buf.length) (hproto : buf.getD 9 0 = CUSTOM_PROTO)
    (hver : buf.getD 0 0 / 16 % 16 ≠ 4) :
    parse_ip_packet buf = none := by
  unfold parse_ip_packet
  rw [if_neg (by omega), if_pos hver]

theorem parse_rejects_bad_version_witness :
    parse_ip_packet
      [85, 0, 0, 20, 0, 0, 0, 0, 64, 255, 0, 0, 10, 0, 0, 1, 10, 0, 0, 2] = none :=
  parse_rejects_bad_version
    [85, 0, 0, 20, 0, 0, 0, 0, 64, 255, 0, 0, 10, 0, 0, 1, 10, 0, 0, 2]
    (by decide) (by decide) (by decide)

/-- C7: `parse_ip_packet` returns the malformed indication (`none`,
modelling -1) on every buffer shorter than the 20-byte minimal IP header
and on every buffer whose declared header length `ihl * 4` exceeds the
received length; on success it returns the source-address bytes and
exactly the bytes past the `ihl * 4`-byte header, so the returned
payload never extends past the received buffer. -/
theorem parse_malformed_and_bounds (buf : List Nat) :
    (buf.length < 20 → parse_ip_packet buf = none)
    ∧ (buf.length < buf.getD 0 0 % 16 * 4 → parse_ip_packet buf = none)
    ∧ (∀ src pl, parse_ip_packet buf = some (src, pl) →
        src = (buf.drop 12).take 4
        ∧ pl = buf.drop (buf.getD 0 0 % 16 * 4)
        ∧ pl.length ≤ buf.length) := by
  refine ⟨fun h => ?_, fun h => ?_, fun src pl hp => ?_⟩
  · unfold parse_ip_packet
    rw [if_pos h]
  · unfold parse_ip_packet
    split_ifs with h1 h2 h3
    · rfl
    · rfl
    · rfl
    · rfl
  · unfold parse_ip_packet at hp
    split_ifs at hp with h1 h2 h3 h4
    have hinj := Option.some.inj hp
    have hsrc : (buf.drop 12).take 4 = src := congrArg Prod.fst hinj
    have hpl : buf.drop (buf.getD 0 0 % 16 * 4) = pl := congrArg Prod.snd hinj
    refine ⟨hsrc.symm, hpl.symm, ?_⟩
    rw [← hpl, List.length_drop]
    omega

theorem parse_malformed_and_bounds_witness :
    parse_ip_packet [1, 2, 3] = none :=
  (parse_malformed_and_bounds [1, 2, 3]).1 (by decide)

/-- Reading the leading four bytes of a frame back with `ntohl` recovers
the 32-bit value written by `htonl`, for any value below `2^32`. -/
theorem rdBE32_be32_head (x : Nat) (rest : List Nat) (hx : x < 4294967296) :
    rdBE32 (be32 x ++ rest) 0 = x := by
  simp only [be32, rdBE32, List.cons_append, List.nil_append, List.getD_cons_zero,
    List.getD_cons_succ]
  omega

/-- C3: encoding a frame the way the client send loop does and decoding
it the way the receive loops do reproduces the client id, sequence
number, both timestamp fields, and the payload bytes exactly. -/
theorem frame_roundtrip (cid seqn ts_sec ts_usec : Nat) (audio : List Nat)
    (h1 : cid < 4294967296) (h2 : seqn < 4294967296)
    (h3 : ts_sec < 4294967296) (h4 : ts_usec < 4294967296) :
    decode_frame (encode_frame cid seqn ts_sec ts_usec audio)
      = some (cid, seqn, ts_sec, ts_usec, audio) := by
  have h20 : ¬ (encode_frame cid seqn ts_sec ts_usec audio).length < 20 := by
    simp only [encode_frame, be32, List.cons_append, List.nil_append, List.length_cons]
    omega
  have hm : rdBE32 (encode_frame cid seqn ts_sec ts_usec audio) 0 = MAGIC := by
    unfold encode_frame
    exact rdBE32_be32_head MAGIC _ (by decide)
  have hc : rdBE32 (encode_frame cid seqn ts_sec ts_usec audio) 4 = cid := by
    simp only [encode_frame, be32, rdBE32, List.cons_append, List.nil_append,
      List.getD_cons_zero, List.getD_cons_succ]
    omega
  have hs : rdBE32 (encode_frame cid seqn ts_sec ts_usec audio) 8 = seqn := by
    simp only [encode_frame, be32, rdBE32, List.cons_append, List.nil_append,
      List.getD_cons_zero, List.getD_cons_succ]
    omega
  have ht : rdBE32 (encode_frame cid seqn ts_sec ts_usec audio) 12 = ts_sec := by
    simp only [encode_frame, be32, rdBE32, List.cons_append, List.nil_append,
      List.getD_cons_zero, List.getD_cons_succ]
    omega
  have hu : rdBE32 (encode_frame cid seqn ts_sec ts_usec audio) 16 = ts_usec := by
    simp only [encode_frame, be32, rdBE32, List.cons_append, List.nil_append,
      List.getD_cons_zero, List.getD_cons_succ]
    omega
  have hd : (encode_frame cid seqn ts_sec ts_usec audio).drop 20 = audio := by
    simp only [encode_frame, be32, List.cons_append, List.nil_append,
      List.drop_succ_cons, List.drop_zero]
  unfold decode_frame
  rw [if_neg h20, if_neg (not_not_intro hm), hc, hs, ht, hu, hd]

theorem frame_roundtrip_witness :
    decode_frame (encode_frame 7 3 1000 2000 [9, 8, 7])
      = some (7, 3, 1000, 2000, [9, 8, 7]) :=
  frame_roundtrip 7 3 1000 2000 [9, 8, 7] (by decide) (by decide) (by decide) (by decide)

set_option maxRecDepth 4000 in
/-- C1 (refuted on the code): for the concrete packet built from source
10.0.0.1, destination 10.0.0.2, identification 0 and a 180-byte zero
payload, the emitted 20-byte IP header does not satisfy the standard
Internet-checksum self-verification law (its ten big-endian words with
the stored checksum in place do not fold to 0xFFFF), and the stored
checksum also differs from `ip_checksum` recomputed over the full
20-byte header (ten words) with the checksum field zeroed.  The cause is
that `build_ip_packet` passes `ip->ihl` (5, a count of 32-bit units) as
the 16-bit word count, so only the first 10 header bytes are summed and
the address fields are left out of the checksum. -/
theorem checksum_not_full_header :
    spec_verify_total
        ((build_ip_packet [10, 0, 0, 1] [10, 0, 0, 2] 0 (List.replicate 180 0)).take 20)
      ≠ 65535
    ∧ ip_checksum
        ((((build_ip_packet [10, 0, 0, 1] [10, 0, 0, 2] 0
            (List.replicate 180 0)).take 20).set 10 0).set 11 0) 10
      ≠ wordLE ((build_ip_packet [10, 0, 0, 1] [10, 0, 0, 2] 0 (List.replicate 180 0)).take 20) 5 := by
  decide

/-- The bytes after the 20-byte IP header of a freshly built packet are
exactly the payload handed to `build_ip_packet`. -/
theorem build_ip_packet_drop (s d : List Nat) (ident : Nat) (pl : List Nat)
    (hs : s.length = 4) (hd : d.length = 4) :
    (build_ip_packet s d ident pl).drop 20 = pl := by
  unfold build_ip_packet
  apply List.drop_left'
  simp [List.length_append, hs, hd]

/-- C8: every send issued by the forwarding engine carries a packet that
is the fresh IP envelope (relay source, recipient destination) around
the inbound payload, and the bytes past the new 20-byte IP header are
byte-for-byte the inbound payload (private header, sequence, timestamps
and audio are not rewritten). -/
theorem forward_frame_verbatim (regs : List client_entry) (ssrc : List Nat) (ident : Nat)
    (pl src : List Nat) (hs : ssrc.length = 4)
    (ha : ∀ e ∈ regs, e.addr.length = 4) :
    ∀ p ∈ server_forward_payload regs ssrc ident pl src,
      p.2 = build_ip_packet ssrc p.1 ident pl ∧ p.2.drop 20 = pl := by
  induction regs with
  | nil =>
    intro p hp
    simp [server_forward_payload] at hp
  | cons e rest ih =>
    intro p hp
    have ha' : ∀ x ∈ rest, x.addr.length = 4 := fun x hx => ha x (List.mem_cons_of_mem e hx)
    unfold server_forward_payload at hp
    split_ifs at hp with h1 h2
    · exact ih ha' p hp
    · exact ih ha' p hp
    · rcases List.mem_cons.mp hp with hEq | hMem
      · subst hEq
        exact ⟨rfl, build_ip_packet_drop ssrc e.addr ident pl hs (ha e (List.mem_cons_self e rest))⟩
      · exact ih ha' p hMem

theorem forward_frame_verbatim_witness :
    (List.drop 20
      (build_ip_packet [192, 168, 0, 9] [10, 0, 0, 2] 0 [7, 7, 7])) = [7, 7, 7] :=
  (forward_frame_verbatim
    [⟨true, 1, [10, 0, 0, 1], 0⟩, ⟨true, 2, [10, 0, 0, 2], 0⟩]
    [192, 168, 0, 9] 0 [7, 7, 7] [10, 0, 0, 1]
    (by decide) (by decide)
    ([10, 0, 0, 2], build_ip_packet [192, 168, 0, 9] [10, 0, 0, 2] 0 [7, 7, 7])
    (by decide)).2

/-- The forwarding loop sends exactly to the used entries whose address
differs from the observed source address, in slot order. -/
theorem server_forward_payload_eq (regs : List client_entry) (ssrc : List Nat)
    (ident : Nat) (pl src : List Nat) :
    server_forward_payload regs ssrc ident pl src
      = (regs.filter (fun e => e.used && !(e.addr == src))).map
          (fun e => (e.addr, build_ip_packet ssrc e.addr ident pl)) := by
  induction regs with
  | nil => rfl
  | cons e rest ih =>
    by_cases h1 : e.used
    · by_cases h2 : e.addr = src
      · simp [server_forward_payload, List.filter_cons, h1, h2, ih]
      · simp [server_forward_payload, List.filter_cons, h1, h2, ih]
    · simp [server_forward_payload, List.filter_cons, Bool.of_not_eq_true h1, ih]

/-- When no used entry carries the source address, the sender-exclusion
filter keeps every used entry. -/
theorem filter_ne_eq_filter_used (regs : List client_entry) (src : List Nat)
    (h : ∀ x ∈ regs, x.used = true → x.addr ≠ src) :
    regs.filter (fun e => e.used && !(e.addr == src)) = regs.filter (fun e => e.used) := by
  apply List.filter_congr
  intro x hx
  by_cases hu : x.used
  · simp [hu, h x hx hu]
  · simp [hu]

/-- With pairwise-distinct used addresses, one of which is the source,
the sender-exclusion filter drops exactly one used entry. -/
theorem forward_count (regs : List client_entry) (src : List Nat)
    (hnd : ((regs.filter (fun e => e.used)).map (fun e => e.addr)).Nodup)
    (hmem : src ∈ (regs.filter (fun e => e.used)).map (fun e => e.addr)) :
    (regs.filter (fun e => e.used && !(e.addr == src))).length + 1
      = (regs.filter (fun e => e.used)).length := by
  induction regs with
  | nil => simp at hmem
  | cons e rest ih =>
    by_cases h1 : e.used
    · rw [List.filter_cons_of_pos h1] at hnd hmem
      rw [List.map_cons, List.nodup_cons] at hnd
      by_cases h2 : e.addr = src
      · have hsrc_not : src ∉ (rest.filter (fun x => x.used)).map (fun x => x.addr) := by
          rw [← h2]
          exact hnd.1
        have hall : ∀ x ∈ rest, x.used = true → x.addr ≠ src := by
          intro x hx hu hcon
          exact hsrc_not (List.mem_map.mpr ⟨x, List.mem_filter.mpr ⟨hx, hu⟩, hcon⟩)
        have hpe : (e.used && !(e.addr == src)) = false := by
          simp [h1, h2]
        rw [List.filter_cons_of_neg (by simp [hpe]), List.filter_cons_of_pos h1,
          filter_ne_eq_filter_used rest src hall, List.length_cons]
      · have hmem2 : src ∈ (rest.filter (fun x => x.used)).map (fun x => x.addr) := by
          rcases List.mem_map.mp hmem with ⟨x, hx, hxa⟩
          rcases List.mem_cons.mp hx with hxe | hxr
          · exact absurd (hxe ▸ hxa) h2
          · exact List.mem_map.mpr ⟨x, hxr, hxa⟩
        rw [List.filter_cons_of_pos (by simp [h1, h2]), List.filter_cons_of_pos h1,
          List.length_cons, List.length_cons]
        rw [ih hnd.2 hmem2]
    · have h1f : e.used = false := Bool.of_not_eq_true h1
      rw [List.filter_cons_of_neg (by simp [h1f])] at hnd hmem
      rw [List.filter_cons_of_neg (by simp [h1f]), List.filter_cons_of_neg (by simp [h1])]
      exact ih hnd hmem

/-- C2: for a registry of pairwise-distinct used addresses containing the
observed source address, the forwarding engine issues exactly N-1 sends
(N the number of used records), none of them to the source address, and
a record receives a send if and only if its address differs from the
observed source address. -/
theorem forward_exclusion (regs : List client_entry) (ssrc : List Nat) (ident : Nat)
    (pl src : List Nat)
    (hnd : ((regs.filter (fun e => e.used)).map (fun e => e.addr)).Nodup)
    (hmem : src ∈ (regs.filter (fun e => e.used)).map (fun e => e.addr)) :
    (server_forward_payload regs ssrc ident pl src).length + 1
      = (regs.filter (fun e => e.used)).length
    ∧ (∀ p ∈ server_forward_payload regs ssrc ident pl src, p.1 ≠ src)
    ∧ (∀ e ∈ regs, e.used = true →
        ((e.addr, build_ip_packet ssrc e.addr ident pl)
            ∈ server_forward_payload regs ssrc ident pl src ↔ e.addr ≠ src)) := by
  refine ⟨?_, ?_, ?_⟩
  · rw [server_forward_payload_eq, List.length_map]
    exact forward_count regs src hnd hmem
  · intro p hp
    rw [server_forward_payload_eq] at hp
    obtain ⟨e, he, hpe⟩ := List.mem_map.mp hp
    have hf := (List.mem_filter.mp he).2
    have haddr : e.addr ≠ src := by
      simp only [Bool.and_eq_true, Bool.not_eq_true', beq_eq_false_iff_ne, ne_eq] at hf
      exact hf.2
    rw [← hpe]
    exact haddr
  · intro e he hu
    rw [server_forward_payload_eq]
    constructor
    · intro hmem2
      obtain ⟨x, hx, hxe⟩ := List.mem_map.mp hmem2
      have hx2 := (List.mem_filter.mp hx).2
      have hxa : x.addr = e.addr := congrArg Prod.fst hxe
      simp only [Bool.and_eq_true, Bool.not_eq_true', beq_eq_false_iff_ne, ne_eq] at hx2
      rw [← hxa]
      exact hx2.2
    · intro hne
      exact List.mem_map.mpr ⟨e, List.mem_filter.mpr ⟨he, by simp [hu, hne]⟩, rfl⟩

theorem forward_exclusion_witness :
    (server_forward_payload
        [⟨true, 1, [10, 0, 0, 1], 0⟩, ⟨true, 2, [10, 0, 0, 2], 0⟩,
         ⟨true, 3, [10, 0, 0, 3], 0⟩]
        [192, 168, 0, 9] 0 [1, 2] [10, 0, 0, 1]).length + 1
      = (([⟨true, 1, [10, 0, 0, 1], 0⟩, ⟨true, 2, [10, 0, 0, 2], 0⟩,
           ⟨true, 3, [10, 0, 0, 3], 0⟩] : List client_entry).filter
            (fun e => e.used)).length :=
  (forward_exclusion
    [⟨true, 1, [10, 0, 0, 1], 0⟩, ⟨true, 2, [10, 0, 0, 2], 0⟩, ⟨true, 3, [10, 0, 0, 3], 0⟩]
    [192, 168, 0, 9] 0 [1, 2] [10, 0, 0, 1] (by decide) (by decide)).1

theorem usedIds_cons (e : client_entry) (l : List client_entry) :
    usedIds (e :: l) = if e.used then e.client_id :: usedIds l else usedIds l := by
  by_cases hu : e.used <;> simp [usedIds, List.filter_cons, hu]

theorem usedCount_cons (e : client_entry) (l : List client_entry) :
    usedCount (e :: l) = usedCount l + (if e.used then 1 else 0) := by
  simp [usedCount, List.countP_cons]

theorem idCount_cons (e : client_entry) (l : List client_entry) (x : Nat) :
    idCount (e :: l) x
      = idCount l x + (if (e.used && e.client_id == x) = true then 1 else 0) := by
  simp [idCount, List.countP_cons]

theorem find_client_cons (e : client_entry) (l : List client_entry) (cid : Nat) :
    find_client (e :: l) cid
      = if (e.used && e.client_id == cid) = true then some e else find_client l cid := by
  by_cases hm : (e.used && e.client_id == cid) = true
  · simp [find_client, List.find?_cons_of_pos _ hm, hm]
  · simp [find_client, List.find?_cons_of_neg _ hm, hm]

/-- The update scan of `server_register_client` finds a slot exactly when
the id is registered. -/
theorem update_some_of_mem (regs : List client_entry) (cid : Nat) (a : List Nat)
    (now : Nat) (h : cid ∈ usedIds regs) :
    ∃ r, update_client regs cid a now = some r := by
  induction regs with
  | nil => simp [usedIds] at h
  | cons e rest ih =>
    by_cases hm : (e.used && e.client_id == cid) = true
    · exact ⟨{ e with addr := a, last_seen_ms := now } :: rest, by simp [update_client, hm]⟩
    · have h' : cid ∈ usedIds rest := by
        by_cases hu : e.used
        · rw [usedIds_cons, if_pos hu] at h
          rcases List.mem_cons.mp h with h0 | h1
          · exact absurd (by simp [hu, h0]) hm
          · exact h1
        · rwa [usedIds_cons, if_neg hu] at h
      obtain ⟨r, hr⟩ := ih h'
      exact ⟨e :: r, by simp [update_client, hm, hr]⟩

/-- The update scan misses exactly when the id is not registered. -/
theorem update_none_of_not_mem (regs : List client_entry) (cid : Nat) (a : List Nat)
    (now : Nat) (h : cid ∉ usedIds regs) :
    update_client regs cid a now = none := by
  induction regs with
  | nil => rfl
  | cons e rest ih =>
    have hm : ¬ (e.used && e.client_id == cid) = true := by
      intro hc
      simp only [Bool.and_eq_true] at hc
      obtain ⟨hu, hid⟩ := hc
      apply h
      rw [usedIds_cons, if_pos hu, ← beq_iff_eq.mp hid]
      exact List.mem_cons_self _ _
    have h' : cid ∉ usedIds rest := by
      intro hc
      apply h
      by_cases hu : e.used
      · rw [usedIds_cons, if_pos hu]
        exact List.mem_cons_of_mem _ hc
      · rwa [usedIds_cons, if_neg hu]
    simp [update_client, hm, ih h']

/-- A successful update scan rewrites exactly the first matching record
in place: the used flags and client ids of the registry are untouched,
and the first record carrying the id now holds the new address and
last-seen time. -/
theorem update_shape (regs : List client_entry) (cid : Nat) (a : List Nat) (now : Nat) :
    ∀ r, update_client regs cid a now = some r →
      usedIds r = usedIds regs
      ∧ usedCount r = usedCount regs
      ∧ (∀ x, idCount r x = idCount regs x)
      ∧ find_client r cid = some ⟨true, cid, a, now⟩ := by
  induction regs with
  | nil =>
    intro r h
    simp [update_client] at h
  | cons e rest ih =>
    intro r h
    by_cases hm : (e.used && e.client_id == cid) = true
    · simp only [update_client, if_pos hm, Option.some.injEq] at h
      have hm2 := hm
      simp only [Bool.and_eq_true, beq_iff_eq] at hm2
      obtain ⟨hu, hid⟩ := hm2
      subst h
      refine ⟨?_, ?_, ?_, ?_⟩
      · rw [usedIds_cons, usedIds_cons]
      · rw [usedCount_cons, usedCount_cons]
      · intro x
        rw [idCount_cons, idCount_cons]
      · rw [find_client_cons, if_pos hm]
        simp [hu, hid]
    · cases hrec : update_client rest cid a now with
      | none =>
        simp [update_client, hm, hrec] at h
      | some r2 =>
        simp only [update_client, if_neg hm, hrec, Option.some.injEq] at h
        obtain ⟨i1, i2, i3, i4⟩ := ih r2 hrec
        subst h
        refine ⟨?_, ?_, ?_, ?_⟩
        · rw [usedIds_cons, usedIds_cons, i1]
        · rw [usedCount_cons, usedCount_cons, i2]
        · intro x
          rw [idCount_cons, idCount_cons, i3 x]
        · rw [find_client_cons, if_neg hm]
          exact i4

/-- Used records carrying an id are counted by occurrences of that id
among the used ids. -/
theorem idCount_eq_count (regs : List client_entry) (cid : Nat) :
    idCount regs cid = (usedIds regs).count cid := by
  induction regs with
  | nil => rfl
  | cons e rest ih =>
    rw [idCount_cons, usedIds_cons]
    by_cases hu : e.used
    · by_cases hc : e.client_id = cid
      · simp [hu, hc, ih, List.count_cons]
      · simp [hu, hc, ih, List.count_cons]
    · simp [hu, ih]

/-- The insert loop of `server_register_client` leaves a fully used
registry unchanged. -/
theorem insert_client_all_used (regs : List client_entry) (cid : Nat) (a : List Nat)
    (now : Nat) (h : ∀ e ∈ regs, e.used = true) :
    insert_client regs cid a now = regs := by
  induction regs with
  | nil => rfl
  | cons e rest ih =>
    have h1 := h e (List.mem_cons_self e rest)
    have ih2 := ih (fun x hx => h x (List.mem_cons_of_mem e hx))
    simp [insert_client, h1, ih2]

/-- C5: upserting an already-registered id into a registry with no
duplicate ids updates that record in place: afterwards there is exactly
one used record for the id, the number of used records is unchanged, the
no-duplicate invariant still holds and the record carries the new
address and last-seen time; a repeated upsert with the same id and
address still leaves exactly one record, and an upsert with a new
address updates the record without creating a duplicate. -/
theorem registry_upsert_invariant (regs : List client_entry) (cid : Nat)
    (a a2 : List Nat) (n1 n2 n3 : Nat)
    (hnd : (usedIds regs).Nodup) (hmem : cid ∈ usedIds regs) :
    idCount (server_register_client regs cid a n1) cid = 1
    ∧ usedCount (server_register_client regs cid a n1) = usedCount regs
    ∧ (usedIds (server_register_client regs cid a n1)).Nodup
    ∧ find_client (server_register_client regs cid a n1) cid = some ⟨true, cid, a, n1⟩
    ∧ idCount (server_register_client (server_register_client regs cid a n1) cid a n2) cid
        = 1
    ∧ usedCount (server_register_client (server_register_client regs cid a n1) cid a n2)
        = usedCount regs
    ∧ find_client (server_register_client (server_register_client regs cid a n1) cid a2 n3)
        cid = some ⟨true, cid, a2, n3⟩
    ∧ idCount (server_register_client (server_register_client regs cid a n1) cid a2 n3) cid
        = 1 := by
  obtain ⟨r1, hr1⟩ := update_some_of_mem regs cid a n1 hmem
  have hreg1 : server_register_client regs cid a n1 = r1 := by
    simp [server_register_client, hr1]
  obtain ⟨s1, s2, s3, s4⟩ := update_shape regs cid a n1 r1 hr1
  have hcount1 : idCount r1 cid = 1 := by
    rw [s3 cid, idCount_eq_count]
    exact List.count_eq_one_of_mem hnd hmem
  have hnd1 : (usedIds r1).Nodup := by
    rw [s1]
    exact hnd
  have hmem1 : cid ∈ usedIds r1 := by
    rw [s1]
    exact hmem
  obtain ⟨r2, hr2⟩ := update_some_of_mem r1 cid a n2 hmem1
  have hreg2 : server_register_client r1 cid a n2 = r2 := by
    simp [server_register_client, hr2]
  obtain ⟨t1, t2, t3, t4⟩ := update_shape r1 cid a n2 r2 hr2
  obtain ⟨r3, hr3⟩ := update_some_of_mem r1 cid a2 n3 hmem1
  have hreg3 : server_register_client r1 cid a2 n3 = r3 := by
    simp [server_register_client, hr3]
  obtain ⟨u1, u2, u3, u4⟩ := update_shape r1 cid a2 n3 r3 hr3
  rw [hreg1, hreg2, hreg3]
  refine ⟨hcount1, s2, hnd1, s4, ?_, ?_, u4, ?_⟩
  · rw [t3 cid]
    exact hcount1
  · rw [t2]
    exact s2
  · rw [u3 cid]
    exact hcount1

theorem registry_upsert_invariant_witness :
    idCount (server_register_client
      [⟨true, 1, [1, 1, 1, 1], 0⟩, ⟨true, 2, [2, 2, 2, 2], 0⟩] 1 [9, 9, 9, 9] 5) 1 = 1 :=
  (registry_upsert_invariant
    [⟨true, 1, [1, 1, 1, 1], 0⟩, ⟨true, 2, [2, 2, 2, 2], 0⟩]
    1 [9, 9, 9, 9] [8, 8, 8, 8] 5 6 7 (by decide) (by decide)).1

/-- C6: when every slot of the registry is used (maximum capacity), an
upsert for an unseen id leaves the registry completely unchanged (the
registration is dropped, nothing is evicted), while an upsert for an
already-registered id still updates that record in place. -/
theorem registry_full_fail_closed (regs : List client_entry) (cid cid2 : Nat)
    (a a2 : List Nat) (n1 n2 : Nat)
    (hlen : regs.length = MAX_CLIENTS)
    (hfull : ∀ e ∈ regs, e.used = true)
    (hnew : cid ∉ usedIds regs) (hold : cid2 ∈ usedIds regs) :
    server_register_client regs cid a n1 = regs
    ∧ find_client (server_register_client regs cid2 a2 n2) cid2
        = some ⟨true, cid2, a2, n2⟩
    ∧ usedCount (server_register_client regs cid2 a2 n2) = usedCount regs := by
  refine ⟨?_, ?_⟩
  · simp [server_register_client, update_none_of_not_mem regs cid a n1 hnew,
      insert_client_all_used regs cid a n1 hfull]
  · obtain ⟨r, hr⟩ := update_some_of_mem regs cid2 a2 n2 hold
    have hreg : server_register_client regs cid2 a2 n2 = r := by
      simp [server_register_client, hr]
    obtain ⟨_, s2, _, s4⟩ := update_shape regs cid2 a2 n2 r hr
    rw [hreg]
    exact ⟨s4, s2⟩

theorem registry_full_fail_closed_witness :
    server_register_client
        (⟨true, 1, [10, 0, 0, 1], 0⟩ :: List.replicate 63 ⟨true, 2, [10, 0, 0, 2], 0⟩)
        3 [10, 0, 0, 3] 5
      = ⟨true, 1, [10, 0, 0, 1], 0⟩ :: List.replicate 63 ⟨true, 2, [10, 0, 0, 2], 0⟩ :=
  (registry_full_fail_closed
    (⟨true, 1, [10, 0, 0, 1], 0⟩ :: List.replicate 63 ⟨true, 2, [10, 0, 0, 2], 0⟩)
    3 1 [10, 0, 0, 3] [7, 7, 7, 7] 5 6
    (by decide) (by decide) (by decide) (by decide)).1
